import Mathlib

/-!
Verification of the hardware-independent x86 IOMMU lifecycle manager
(`drivers/passthrough/x86/iommu.c`): the identity-map registry
(`iommu_identity_mapping`, `iommu_identity_map_teardown`), the quarantine
domain-id bitmap allocator (`iommu_alloc_domid`, `iommu_free_domid`), the
page-table arena (`iommu_alloc_pgtable`, `iommu_free_pgtables`) and the
hardware-domain map builder (`arch_iommu_hwdom_init`).

The C functions are shallowly embedded as executable Lean functions.
External collaborators (`set_identity_p2m_entry`, `clear_identity_p2m_entry`,
`iommu_map`, the frame classification produced by `hwdom_iommu_map`, the
physical-page allocator) are parameters of the model, exactly as they are
external calls in the source.  Machine integers are modelled as `Nat` with
explicit reduction modulo `2 ^ 32` / `2 ^ 64` at the operations where the C
code can wrap.
-/

set_option autoImplicit false

/-- The subset of `p2m_access_t` values relevant to this translation unit.
`x` is the revoke marker used by `iommu_identity_mapping`. -/
inductive P2mAccess where
  | n
  | r
  | w
  | rw
  | rx
  | wx
  | rwx
  | x
deriving DecidableEq, Repr

/-- Error identities returned by this translation unit (negated errno values
in the C source). -/
inductive Errno where
  | EADDRINUSE
  | ENOENT
  | ENXIO
  | ENOMEM
  | ENODEV
  | EIO
deriving DecidableEq, Repr

/-- `struct identity_map` — one identity-mapped range of a guest, with its
access class and reference count (`end` is a Lean keyword, hence `end_`). -/
structure identity_map where
  base : Nat
  end_ : Nat
  access : P2mAccess
  count : Nat
deriving DecidableEq, Repr

def U32 : Nat := 2 ^ 32

def U64 : Nat := 2 ^ 64

def PAGE_SHIFT_4K : Nat := 12

def PAGE_SIZE_4K : Nat := 2 ^ PAGE_SHIFT_4K

/-- `PAGE_ALIGN_4K`: round up to the next 4k boundary. -/
def PAGE_ALIGN_4K (x : Nat) : Nat := (x + PAGE_SIZE_4K - 1) / PAGE_SIZE_4K * PAGE_SIZE_4K

/-- The overlap test of `iommu_identity_mapping`:
`end >= map->base && map->end >= base` (inclusive bounds). -/
def overlaps (m : identity_map) (base e : Nat) : Prop :=
  e ≥ m.base ∧ m.end_ ≥ base

instance (m : identity_map) (base e : Nat) : Decidable (overlaps m base e) :=
  inferInstanceAs (Decidable (e ≥ m.base ∧ m.end_ ≥ base))

/-- Overlap of the half-open ranges `[base1, e1)` and `[base2, e2)` — the
interval notion used by the specification's `[base,end)` phrasing. -/
def halfOpenOverlaps (m : identity_map) (base e : Nat) : Prop :=
  base < m.end_ ∧ m.base < e

instance (m : identity_map) (base e : Nat) : Decidable (halfOpenOverlaps m base e) :=
  inferInstanceAs (Decidable (base < m.end_ ∧ m.base < e))

/-- The `base_pfn` local of `iommu_identity_mapping`: `base >> PAGE_SHIFT_4K`. -/
def base_pfn (base : Nat) : Nat := base >>> PAGE_SHIFT_4K

/-- The `end_pfn` local of `iommu_identity_mapping`:
`PAGE_ALIGN_4K(end) >> PAGE_SHIFT_4K`. -/
def end_pfn (e : Nat) : Nat := PAGE_ALIGN_4K e >>> PAGE_SHIFT_4K

/-- Behaviour of the external collaborators of `iommu_identity_mapping`:
per-frame result of `set_identity_p2m_entry` (`none` = success), per-frame
failure of `clear_identity_p2m_entry`, and whether `xmalloc` succeeds. -/
structure IdEnv where
  setErr : Nat → Option Errno
  clearFail : Nat → Bool
  allocOk : Bool

/-- The grant-side frame loop of `iommu_identity_mapping`:
`while (base_pfn < end_pfn) { err = set_identity_p2m_entry(...); if (err) return err; base_pfn++; }`.
Successfully installed frames are appended to the p2m set; the loop aborts at
the first failure, keeping the frames already installed. -/
def setFrames (setErr : Nat → Option Errno) : Nat → Nat → List Nat → Option Errno × List Nat
  | _, 0, p2m => (none, p2m)
  | bpfn, n + 1, p2m =>
    match setErr bpfn with
    | some err => (some err, p2m)
    | none => setFrames setErr (bpfn + 1) n (p2m ++ [bpfn])

/-- The release-side frame loop of `iommu_identity_mapping`:
`while (base_pfn < end_pfn) { if (clear_identity_p2m_entry(...)) ret = -ENXIO; base_pfn++; }`.
Failures do not stop the loop; they are aggregated into a single `ENXIO`. -/
def clearFrames (clearFail : Nat → Bool) : Nat → Nat → List Nat → Option Errno → Option Errno × List Nat
  | _, 0, p2m, ret => (ret, p2m)
  | bpfn, n + 1, p2m, ret =>
    if clearFail bpfn then clearFrames clearFail (bpfn + 1) n p2m (some Errno.ENXIO)
    else clearFrames clearFail (bpfn + 1) n (p2m.filter (fun x => x != bpfn)) ret

/-- The `list_for_each_entry` scan of `iommu_identity_mapping`, including the
tail (no entry matched) behaviour.  Returns the overall result, the new
`identity_maps` list and the new p2m set. -/
def identity_scan (env : IdEnv) (p2ma : P2mAccess) (base e bpfn epfn : Nat)
    (p2m : List Nat) : List identity_map → Except Errno Unit × List identity_map × List Nat
  | [] =>
    if p2ma = P2mAccess.x then (Except.error Errno.ENOENT, [], p2m)
    else
      let t := setFrames env.setErr bpfn (epfn - bpfn) p2m
      match t.1 with
      | some err => (Except.error err, [], t.2)
      | none =>
        if env.allocOk then (Except.ok (), [⟨base, e, p2ma, 1⟩], t.2)
        else (Except.error Errno.ENOMEM, [], t.2)
  | m :: rest =>
    if m.base = base ∧ m.end_ = e then
      if p2ma ≠ P2mAccess.x then
        if m.access ≠ p2ma then (Except.error Errno.EADDRINUSE, m :: rest, p2m)
        else (Except.ok (), { m with count := (m.count + 1) % U32 } :: rest, p2m)
      else
        let c := (m.count + (U32 - 1)) % U32
        if c ≠ 0 then (Except.ok (), { m with count := c } :: rest, p2m)
        else
          let t := clearFrames env.clearFail bpfn (epfn - bpfn) p2m none
          ((match t.1 with
            | some err => Except.error err
            | none => Except.ok ()), rest, t.2)
    else if overlaps m base e then (Except.error Errno.EADDRINUSE, m :: rest, p2m)
    else
      let t := identity_scan env p2ma base e bpfn epfn p2m rest
      (t.1, m :: t.2.1, t.2.2)

/-- `iommu_identity_mapping(d, p2ma, base, end, flag)` on the state
`(maps, p2m)` of domain `d`.  `p2ma = P2mAccess.x` requests a release, any
other class requests a grant. -/
def iommu_identity_mapping (env : IdEnv) (p2ma : P2mAccess) (base e : Nat)
    (maps : List identity_map) (p2m : List Nat) :
    Except Errno Unit × List identity_map × List Nat :=
  identity_scan env p2ma base e (base_pfn base) (end_pfn e) p2m maps

/-- The `list_for_each_entry_safe` deletion loop of
`iommu_identity_map_teardown`: every entry is unlinked and freed. -/
def teardown_loop : List identity_map → List identity_map
  | [] => []
  | _ :: rest => teardown_loop rest

/-- `iommu_identity_map_teardown(d)`: discards bookkeeping only; the p2m
component of the state is not touched (no unmap call appears in the loop). -/
def iommu_identity_map_teardown (st : List identity_map × List Nat) :
    List identity_map × List Nat :=
  (teardown_loop st.1, st.2)

/-- Modelled from the spec: `DOMID_MASK` from the platform's public headers
(not under the sources verified here) — the reserved boundary of the 16-bit
domain-identifier space; primary guest identifiers satisfy `id ≤ DOMID_MASK`. -/
def DOMID_MASK : Nat := 0x7fff

/-- Modelled from the spec: `DOMID_INVALID` from the platform's public headers
— the distinguished invalid-id sentinel. -/
def DOMID_INVALID : Nat := 0x7ff4

def UINT16_MAX : Nat := 0xffff

/-- Size of the quarantine identifier bitmap:
`UINT16_MAX - DOMID_MASK` bits, as allocated by `iommu_init_domid`. -/
def domidSpace : Nat := UINT16_MAX - DOMID_MASK

/-- `find_next_zero_bit(map, size, pos)` scan, fuel-indexed so that it is
structurally recursive: returns the first position `≥ pos` whose bit is
clear, or `size` if the examined window holds no clear bit. -/
def fnzb_go (map : Nat → Bool) (size : Nat) : Nat → Nat → Nat
  | 0, _ => size
  | fuel + 1, pos => if map pos then fnzb_go map size fuel (pos + 1) else pos

/-- `find_next_zero_bit(map, size, offset)`. -/
def find_next_zero_bit (map : Nat → Bool) (size offset : Nat) : Nat :=
  fnzb_go map size (size - offset) offset

/-- `iommu_alloc_domid(map)` together with the rotating cursor `start`
(a C `static` local, made explicit state here).  Returns the allocated
domid (or `DOMID_INVALID`), the updated bitmap and the updated cursor. -/
def iommu_alloc_domid (map : Nat → Bool) (start : Nat) :
    Nat × (Nat → Bool) × Nat :=
  let idx0 := find_next_zero_bit map domidSpace start
  let idx := if idx0 ≥ domidSpace then find_next_zero_bit map domidSpace 0 else idx0
  if idx ≥ domidSpace then (DOMID_INVALID, map, start)
  else (idx ||| (DOMID_MASK + 1), fun j => if j = idx then true else map j, idx + 1)

/-- Outcome of `iommu_free_domid`: normal return with the updated bitmap,
an `ASSERT` failure (debug-fatal), or `BUG()` (unconditionally fatal). -/
inductive FreeDomidResult where
  | ok (map : Nat → Bool)
  | assertFail
  | bug

/-- `iommu_free_domid(domid, map)`. -/
def iommu_free_domid (domid : Nat) (map : Nat → Bool) : FreeDomidResult :=
  if domid = DOMID_INVALID then FreeDomidResult.ok map
  else if ¬ DOMID_MASK < domid then FreeDomidResult.assertFail
  else if map (domid &&& DOMID_MASK) then
    FreeDomidResult.ok (fun j => if j = domid &&& DOMID_MASK then false else map j)
  else FreeDomidResult.bug

/-- Xen's `ERESTART` errno: the "more work remains, re-invoke me" signal. -/
def ERESTART : Int := 85

/-- The drain loop of `iommu_free_pgtables`: pop the head of the live list,
free it, and every 256 pages poll `general_preempt_check()` (modelled by
`preempt`, indexed by the running `done` counter).  Returns the overall
result, the remaining list and the pages freed (in order). -/
def free_pgt_loop (preempt : Nat → Bool) : List Nat → Nat → List Nat → Int × List Nat × List Nat
  | [], _, freed => (0, [], freed.reverse)
  | pg :: rest, done, freed =>
    let done2 := done + 1
    if done2 % 256 = 0 ∧ preempt done2 then (-ERESTART, rest, (pg :: freed).reverse)
    else free_pgt_loop preempt rest done2 (pg :: freed)

/-- `iommu_free_pgtables(d)` on the live list `pgs` of the owner.
`enabled` is `is_iommu_enabled(d)`. -/
def iommu_free_pgtables (enabled : Bool) (preempt : Nat → Bool) (pgs : List Nat) :
    Int × List Nat × List Nat :=
  if enabled then free_pgt_loop preempt pgs 0 [] else (0, pgs, [])

/-- Modelled from the spec: `CONTIG_LEVEL_SHIFT` from the missing
`asm/pt-contig-markers.h` header — the base run-length exponent (the
configured base granularity: one page-table level holds `2 ^ 9` entries). -/
def CONTIG_LEVEL_SHIFT : Nat := 9

/-- `find_first_set_bit(x)`: index of the lowest set bit (fuel-indexed to be
structurally recursive; 64 bits of fuel covers every `uint64_t` argument,
and the C function is only ever applied to non-zero values). -/
def ffs_go : Nat → Nat → Nat
  | 0, _ => 0
  | fuel + 1, n => if n % 2 = 1 then 0 else 1 + ffs_go fuel (n / 2)

/-- `find_first_set_bit(x)` for `x` of type `uint64_t`. -/
def find_first_set_bit (n : Nat) : Nat := ffs_go 64 n

/-- Number of 64-bit slots in one page: `PAGE_SIZE / sizeof(uint64_t)`. -/
def PT_SLOTS : Nat := 512

/-- Pointwise update of a page's slot contents. -/
def upd (p : Nat → Nat) (j v : Nat) : Nat → Nat :=
  fun k => if k = j then v else p k

/-- The marker-initialisation loop of `iommu_alloc_pgtable`:
`for (i = 4; i < PAGE_SIZE / sizeof(*p); i += 4)` writing
`p[i] = find_first_set_bit(i) << shift; p[i+1] = 0; p[i+2] = 1 << shift;
p[i+3] = 0;`.  All stores are `uint64_t`, hence the reduction mod `2 ^ 64`. -/
def markerLoop (shift : Nat) : Nat → Nat → (Nat → Nat) → (Nat → Nat)
  | 0, _, p => p
  | fuel + 1, i, p =>
    if i < PT_SLOTS then
      markerLoop shift fuel (i + 4)
        (upd (upd (upd (upd p i ((find_first_set_bit i <<< shift) % U64))
          (i + 1) 0) (i + 2) ((1 <<< shift) % U64)) (i + 3) 0)
    else p

/-- Slot contents of the page produced by `iommu_alloc_pgtable(hd, contig_mask)`,
as a function of the slot index; `p0` is the (arbitrary) content of the fresh
page handed out by `alloc_domheap_page`.  With a zero mask the page is cleared
(`clear_page`); otherwise slots 0–3 are written explicitly and the loop
`markerLoop` fills the remaining 4-slot groups. -/
def iommu_alloc_pgtable_page (contig_mask : Nat) (p0 : Nat → Nat) : Nat → Nat :=
  if contig_mask ≠ 0 then
    let shift := find_first_set_bit contig_mask
    markerLoop shift 127 4
      (upd (upd (upd (upd p0 0 ((CONTIG_LEVEL_SHIFT <<< shift) % U64)) 1 0)
        2 ((1 <<< shift) % U64)) 3 0)
  else fun _ => 0

/-- `decode_run(page, slot)`: run-length exponent carried by a marker slot. -/
def decode_run (pg : Nat → Nat) (shift slot : Nat) : Nat := pg slot >>> shift

/-- The marker pattern written by the loop of `iommu_alloc_pgtable` for slot
indices `≥ 4` (and, incidentally, also realised at slots 1–3). -/
def marker_pat (shift j : Nat) : Nat :=
  if j % 4 = 0 then (find_first_set_bit j <<< shift) % U64
  else if j % 4 = 2 then (1 <<< shift) % U64
  else 0

/-- A collaborator environment in which every p2m operation succeeds and
`xmalloc` succeeds. -/
def env0 : IdEnv := ⟨fun _ => none, fun _ => false, true⟩

/-- A collaborator environment in which every p2m operation succeeds but
`xmalloc` fails. -/
def envNoAlloc : IdEnv := ⟨fun _ => none, fun _ => false, false⟩

/-- One `iommu_map` invocation issued by the hwdom map builder: device frame
(= machine frame for the identity map), frame count and permissions. -/
structure MapCall where
  dfn : Nat
  count : Nat
  perms : Nat
deriving DecidableEq, Repr

/-- Builder state: the pending coalesced run (`start`, `count`, `start_perms`)
and the `iommu_map` calls issued so far. -/
structure HwdomSt where
  start : Nat
  count : Nat
  start_perms : Nat
  calls : List MapCall
deriving Repr

/-- The `commit:` block of `arch_iommu_hwdom_init`:
`while ((rc = iommu_map(d, start, start, count, perms|IOMMUF_preempt, ..)) > 0)
{ start += rc; count -= rc; }` — retried until `iommu_map` stops reporting
partial progress.  `mapRc` is the collaborator's return value; the fuel bounds
the retries (a well-behaved `iommu_map` consumes at least one frame per
positive return, so `count + 1` fuel is never exhausted). -/
def commit_loop (mapRc : Nat → Nat → Nat → Int) : Nat → Nat → Nat → Nat →
    List MapCall × Int × Nat × Nat
  | 0, start, count, _ => ([], 0, start, count)
  | fuel + 1, start, count, perms =>
    let rc := mapRc start count perms
    if 0 < rc then
      let t := commit_loop mapRc fuel (start + rc.toNat) (count - rc.toNat) perms
      (⟨start, count, perms⟩ :: t.1, t.2)
    else ([⟨start, count, perms⟩], rc, start, count)

/-- The frame scan of `arch_iommu_hwdom_init` for a non-translated guest
(`paging_mode_translate(d)` false, so `pdx_to_pfn` is applied to indices
starting at 0).  `perms` is the classification computed by
`hwdom_iommu_map`; fuel is `top - i`.  The final `goto commit` fires when
`++i` reaches `top` with a pending run. -/
def hwdom_loop (perms : Nat → Nat) (mapRc : Nat → Nat → Nat → Int) (top : Nat) :
    Nat → Nat → HwdomSt → HwdomSt
  | 0, _, st => st
  | fuel + 1, i, st =>
    let pfn := i
    let p := perms i
    let st2 :=
      if p = 0 then st
      else if pfn ≠ st.start + st.count ∨ p ≠ st.start_perms then
        let t := commit_loop mapRc (st.count + 1) st.start st.count st.start_perms
        ⟨pfn, 1, p, st.calls ++ t.1⟩
      else { st with count := st.count + 1 }
    if i + 1 = top ∧ st2.count ≠ 0 then
      let t := commit_loop mapRc (st2.count + 1) st2.start st2.count st2.start_perms
      ⟨pfn, 1, p, st2.calls ++ t.1⟩
    else hwdom_loop perms mapRc top fuel (i + 1) st2

/-- `arch_iommu_hwdom_init(d)` for a non-translated hardware domain:
returns immediately in passthrough mode, otherwise scans frames `[0, top)`. -/
def arch_iommu_hwdom_init (passthrough : Bool) (perms : Nat → Nat)
    (mapRc : Nat → Nat → Nat → Int) (top : Nat) : HwdomSt :=
  if passthrough then ⟨0, 0, 0, []⟩
  else hwdom_loop perms mapRc top top 0 ⟨0, 0, 0, []⟩

/-- The ranges actually committed by the builder: `iommu_map` calls covering
at least one frame (`iommu_map` with a zero count maps nothing). -/
def committed (calls : List MapCall) : List MapCall :=
  calls.filter (fun c => c.count != 0)

/-! ## Helper lemmas -/

theorem teardown_loop_eq_nil (l : List identity_map) : teardown_loop l = [] := by
  induction l with
  | nil => rfl
  | cons m rest ih => simpa [teardown_loop] using ih

theorem free_pgt_loop_spec (preempt : Nat → Bool) (pgs : List Nat) :
    ∀ (done : Nat) (freed : List Nat),
      free_pgt_loop preempt pgs done freed = (0, [], freed.reverse ++ pgs) ∨
      ∃ k, 0 < k ∧ k ≤ pgs.length ∧ (done + k) % 256 = 0 ∧
        free_pgt_loop preempt pgs done freed =
          (-ERESTART, pgs.drop k, freed.reverse ++ pgs.take k) := by
  induction pgs with
  | nil => intro done freed; left; simp [free_pgt_loop]
  | cons pg rest ih =>
    intro done freed
    by_cases hp : (done + 1) % 256 = 0 ∧ preempt (done + 1)
    · right
      refine ⟨1, by omega, by simp, by omega, ?_⟩
      simp [free_pgt_loop, hp]
    · have hrec : free_pgt_loop preempt (pg :: rest) done freed =
          free_pgt_loop preempt rest (done + 1) (pg :: freed) := by
        simp [free_pgt_loop, hp]
      rcases ih (done + 1) (pg :: freed) with h | ⟨k, hk0, hkl, hkm, h⟩
      · left
        rw [hrec, h]
        simp
      · right
        refine ⟨k + 1, by omega, by simp; omega, by omega, ?_⟩
        rw [hrec, h]
        simp

theorem fnzb_go_spec (map : Nat → Bool) (size : Nat) :
    ∀ (fuel pos : Nat), pos + fuel = size →
      (fnzb_go map size fuel pos = size ∧ ∀ j, pos ≤ j → j < size → map j = true) ∨
      (pos ≤ fnzb_go map size fuel pos ∧ fnzb_go map size fuel pos < size ∧
        map (fnzb_go map size fuel pos) = false) := by
  intro fuel
  induction fuel with
  | zero =>
    intro pos hpos
    left
    exact ⟨rfl, fun j h1 h2 => absurd h2 (by omega)⟩
  | succ fuel ih =>
    intro pos hpos
    by_cases hm : map pos
    · have hrec : fnzb_go map size (fuel + 1) pos = fnzb_go map size fuel (pos + 1) := by
        simp [fnzb_go, hm]
      rcases ih (pos + 1) (by omega) with ⟨h1, h2⟩ | ⟨h1, h2, h3⟩
      · left
        refine ⟨hrec.trans h1, fun j hj1 hj2 => ?_⟩
        rcases Nat.eq_or_lt_of_le hj1 with rfl | hj1
        · exact hm
        · exact h2 j (by omega) hj2
      · right
        rw [hrec]
        exact ⟨by omega, h2, h3⟩
    · right
      have hrec : fnzb_go map size (fuel + 1) pos = pos := by
        simp [fnzb_go, hm]
      rw [hrec]
      exact ⟨Nat.le_refl _, by omega, by simpa using hm⟩

theorem find_next_zero_bit_spec (map : Nat → Bool) (size offset : Nat) (h : offset ≤ size) :
    (find_next_zero_bit map size offset = size ∧
      ∀ j, offset ≤ j → j < size → map j = true) ∨
    (offset ≤ find_next_zero_bit map size offset ∧
      find_next_zero_bit map size offset < size ∧
      map (find_next_zero_bit map size offset) = false) :=
  fnzb_go_spec map size (size - offset) offset (by omega)

theorem not_exact_of_not_overlaps {m : identity_map} {base e : Nat}
    (hlt : base < e) (h : ¬ overlaps m base e) : ¬ (m.base = base ∧ m.end_ = e) := by
  rintro ⟨hb, he⟩
  exact h ⟨by omega, by omega⟩

theorem identity_scan_cons_skip (env : IdEnv) (p2ma : P2mAccess)
    (base e bpfn epfn : Nat) (p2m : List Nat) (m : identity_map)
    (rest : List identity_map)
    (h1 : ¬ (m.base = base ∧ m.end_ = e)) (h2 : ¬ overlaps m base e) :
    identity_scan env p2ma base e bpfn epfn p2m (m :: rest) =
      (let t := identity_scan env p2ma base e bpfn epfn p2m rest
       (t.1, m :: t.2.1, t.2.2)) := by
  simp [identity_scan, h1, h2]

theorem identity_scan_append_skip (env : IdEnv) (p2ma : P2mAccess)
    (base e bpfn epfn : Nat) (p2m : List Nat) (pre rest : List identity_map)
    (hlt : base < e)
    (hpre : ∀ m2 ∈ pre, ¬ overlaps m2 base e) :
    identity_scan env p2ma base e bpfn epfn p2m (pre ++ rest) =
      (let t := identity_scan env p2ma base e bpfn epfn p2m rest
       (t.1, pre ++ t.2.1, t.2.2)) := by
  induction pre with
  | nil => simp
  | cons m pre ih =>
    have hov : ¬ overlaps m base e := hpre m (by simp)
    rw [List.cons_append,
      identity_scan_cons_skip env p2ma base e bpfn epfn p2m m (pre ++ rest)
        (not_exact_of_not_overlaps hlt hov) hov,
      ih (fun m2 hm2 => hpre m2 (by simp [hm2]))]
    simp

theorem setFrames_ok (setErr : Nat → Option Errno) :
    ∀ (n b : Nat) (p2m : List Nat), (∀ j, j < n → setErr (b + j) = none) →
      setFrames setErr b n p2m = (none, p2m ++ List.range' b n) := by
  intro n
  induction n with
  | zero => intro b p2m _; simp [setFrames]
  | succ n ih =>
    intro b p2m h
    have h0 : setErr b = none := by simpa using h 0 (by omega)
    have hrest : ∀ j, j < n → setErr (b + 1 + j) = none := by
      intro j hj
      have := h (j + 1) (by omega)
      rwa [show b + (j + 1) = b + 1 + j by omega] at this
    rw [setFrames, h0, ih (b + 1) (p2m ++ [b]) hrest, List.range'_succ]
    simp

theorem mul_mod_succ_pred (c : Nat) (h1 : 0 < c) (h2 : c < U32) :
    (c + (U32 - 1)) % U32 = c - 1 := by
  have hU : 0 < U32 := by norm_num [U32]
  rw [show c + (U32 - 1) = (c - 1) + U32 by omega, Nat.add_mod_right,
    Nat.mod_eq_of_lt (by omega)]

theorem count_incr_mod (c : Nat) (h : c + 1 < U32) : (c + 1) % U32 = c + 1 :=
  Nat.mod_eq_of_lt h

theorem clearFrames_spec (cf : Nat → Bool) :
    ∀ (n b : Nat) (p2m : List Nat) (ret : Option Errno),
      (clearFrames cf b n p2m ret).1 =
        (if ∃ j, j < n ∧ cf (b + j) = true then some Errno.ENXIO else ret) ∧
      ∀ x, x ∈ (clearFrames cf b n p2m ret).2 ↔
        x ∈ p2m ∧ ¬ (b ≤ x ∧ x < b + n ∧ cf x = false) := by
  intro n
  induction n with
  | zero =>
    intro b p2m ret
    constructor
    · simp only [clearFrames]
      rw [if_neg]
      rintro ⟨j, hj, _⟩
      omega
    · intro x
      simp only [clearFrames]
      constructor
      · intro hx
        exact ⟨hx, by rintro ⟨h1, h2, h3⟩; omega⟩
      · rintro ⟨hx, _⟩
        exact hx
  | succ n ih =>
    intro b p2m ret
    by_cases hcf : cf b = true
    · have hrec : clearFrames cf b (n + 1) p2m ret =
          clearFrames cf (b + 1) n p2m (some Errno.ENXIO) := by
        simp [clearFrames, hcf]
      obtain ⟨ih1, ih2⟩ := ih (b + 1) p2m (some Errno.ENXIO)
      rw [hrec]
      constructor
      · rw [ih1]
        have hex2 : ∃ j, j < n + 1 ∧ cf (b + j) = true :=
          ⟨0, by omega, by simpa using hcf⟩
        rw [if_pos hex2]
        split <;> rfl
      · intro x
        rw [ih2 x]
        constructor
        · rintro ⟨hx, hno⟩
          refine ⟨hx, ?_⟩
          rintro ⟨h1, h2, h3⟩
          rcases Nat.eq_or_lt_of_le h1 with heq | h1'
          · rw [← heq] at h3
            simp [h3] at hcf
          · exact hno ⟨by omega, by omega, h3⟩
        · rintro ⟨hx, hno⟩
          refine ⟨hx, ?_⟩
          rintro ⟨h1, h2, h3⟩
          exact hno ⟨by omega, by omega, h3⟩
    · have hcf2 : cf b = false := by simpa using hcf
      have hrec : clearFrames cf b (n + 1) p2m ret =
          clearFrames cf (b + 1) n (p2m.filter (fun x => x != b)) ret := by
        simp [clearFrames, hcf2]
      obtain ⟨ih1, ih2⟩ := ih (b + 1) (p2m.filter (fun x => x != b)) ret
      rw [hrec]
      constructor
      · rw [ih1]
        by_cases hex : ∃ j, j < n ∧ cf (b + 1 + j) = true
        · have hex2 : ∃ j, j < n + 1 ∧ cf (b + j) = true := by
            obtain ⟨j, hj, hcfj⟩ := hex
            exact ⟨j + 1, by omega, by rwa [show b + (j + 1) = b + 1 + j by omega]⟩
          rw [if_pos hex, if_pos hex2]
        · have hex2 : ¬ ∃ j, j < n + 1 ∧ cf (b + j) = true := by
            rintro ⟨j, hj, hcfj⟩
            rcases j with _ | j
            · rw [Nat.add_zero] at hcfj
              rw [hcfj] at hcf2
              exact absurd hcf2 (by simp)
            · exact hex ⟨j, by omega,
                by rwa [show b + (j + 1) = b + 1 + j by omega] at hcfj⟩
          rw [if_neg hex, if_neg hex2]
      · intro x
        rw [ih2 x]
        simp only [List.mem_filter, bne_iff_ne, decide_eq_true_eq]
        constructor
        · rintro ⟨⟨hx, hxb⟩, hno⟩
          refine ⟨hx, ?_⟩
          rintro ⟨h1, h2, h3⟩
          rcases Nat.eq_or_lt_of_le h1 with heq | h1'
          · exact hxb heq.symm
          · exact hno ⟨by omega, by omega, h3⟩
        · rintro ⟨hx, hno⟩
          by_cases hxb : x = b
          · subst hxb
            exact absurd ⟨Nat.le_refl x, by omega, hcf2⟩ hno
          · refine ⟨⟨hx, hxb⟩, ?_⟩
            rintro ⟨h1, h2, h3⟩
            exact hno ⟨by omega, by omega, h3⟩

theorem identity_scan_conflict (env : IdEnv) (p2ma : P2mAccess)
    (base e bpfn epfn : Nat) (p2m : List Nat) :
    ∀ maps : List identity_map,
      (∀ m ∈ maps, ¬ (m.base = base ∧ m.end_ = e)) →
      (∃ m ∈ maps, overlaps m base e) →
      identity_scan env p2ma base e bpfn epfn p2m maps =
        (Except.error Errno.EADDRINUSE, maps, p2m) := by
  intro maps
  induction maps with
  | nil =>
    rintro _ ⟨m, hm, _⟩
    simp at hm
  | cons m rest ih =>
    rintro hex hov
    have hexm : ¬ (m.base = base ∧ m.end_ = e) := hex m (by simp)
    by_cases hovm : overlaps m base e
    · simp [identity_scan, hexm, hovm]
    · have hrest : ∃ m2 ∈ rest, overlaps m2 base e := by
        obtain ⟨m2, hm2, ho2⟩ := hov
        rcases List.mem_cons.mp hm2 with rfl | hm2
        · exact absurd ho2 hovm
        · exact ⟨m2, hm2, ho2⟩
      rw [identity_scan_cons_skip env p2ma base e bpfn epfn p2m m rest hexm hovm,
        ih (fun m2 h2 => hex m2 (by simp [h2])) hrest]

theorem identity_scan_fresh (env : IdEnv) (p2ma : P2mAccess)
    (base e bpfn epfn : Nat) (p2m : List Nat)
    (hrev : p2ma ≠ P2mAccess.x) (hlt : base < e)
    (hset : ∀ j, j < epfn - bpfn → env.setErr (bpfn + j) = none)
    (halloc : env.allocOk = true) :
    ∀ maps : List identity_map, (∀ m ∈ maps, ¬ overlaps m base e) →
      identity_scan env p2ma base e bpfn epfn p2m maps =
        (Except.ok (), maps ++ [⟨base, e, p2ma, 1⟩],
          p2m ++ List.range' bpfn (epfn - bpfn)) := by
  intro maps
  induction maps with
  | nil =>
    intro _
    have hsf := setFrames_ok env.setErr (epfn - bpfn) bpfn p2m hset
    simp [identity_scan, hrev, hsf, halloc]
  | cons m rest ih =>
    intro hov
    have hovm : ¬ overlaps m base e := hov m (by simp)
    rw [identity_scan_cons_skip env p2ma base e bpfn epfn p2m m rest
      (not_exact_of_not_overlaps hlt hovm) hovm,
      ih (fun m2 h2 => hov m2 (by simp [h2]))]
    simp

theorem identity_scan_release_no_exact (env : IdEnv) (base e bpfn epfn : Nat)
    (p2m : List Nat) :
    ∀ maps : List identity_map, (∀ m ∈ maps, ¬ (m.base = base ∧ m.end_ = e)) →
      identity_scan env P2mAccess.x base e bpfn epfn p2m maps =
        ((if ∃ m ∈ maps, overlaps m base e then Except.error Errno.EADDRINUSE
          else Except.error Errno.ENOENT), maps, p2m) := by
  intro maps
  induction maps with
  | nil =>
    intro _
    simp [identity_scan]
  | cons m rest ih =>
    intro hex
    have hexm : ¬ (m.base = base ∧ m.end_ = e) := hex m (by simp)
    by_cases hovm : overlaps m base e
    · simp [identity_scan, hexm, hovm]
    · rw [identity_scan_cons_skip env P2mAccess.x base e bpfn epfn p2m m rest hexm hovm,
        ih (fun m2 h2 => hex m2 (by simp [h2]))]
      by_cases hex2 : ∃ m2 ∈ rest, overlaps m2 base e
      · simp [hex2, hovm]
      · simp [hex2, hovm]

/-! ## Claim theorems -/

/-- Claim C1: a grant (non-revoke access) on a range that exactly matches a
live entry increments that entry's refcount and succeeds when the accesses
agree (so a repeated identical grant yields refcount 2), and fails with
`EADDRINUSE` leaving the registry and p2m untouched when they differ. -/
theorem iommu_identity_mapping_exact_grant
    (env : IdEnv) (pre post : List identity_map) (m : identity_map)
    (p2m : List Nat) (base e : Nat) (p2ma : P2mAccess)
    (hrev : p2ma ≠ P2mAccess.x) (hlt : base < e)
    (hb : m.base = base) (he : m.end_ = e)
    (hcnt : m.count + 1 < U32)
    (hpre : ∀ m2 ∈ pre, ¬ overlaps m2 base e) :
    (m.access = p2ma →
      iommu_identity_mapping env p2ma base e (pre ++ m :: post) p2m =
        (Except.ok (), pre ++ { m with count := m.count + 1 } :: post, p2m)) ∧
    (m.access ≠ p2ma →
      iommu_identity_mapping env p2ma base e (pre ++ m :: post) p2m =
        (Except.error Errno.EADDRINUSE, pre ++ m :: post, p2m)) := by
  unfold iommu_identity_mapping
  rw [identity_scan_append_skip env p2ma base e (base_pfn base) (end_pfn e) p2m
    pre (m :: post) hlt hpre]
  constructor
  · intro hacc
    simp [identity_scan, hb, he, hrev, hacc, count_incr_mod m.count hcnt]
  · intro hacc
    simp [identity_scan, hb, he, hrev, hacc]

/-- Witness for C1: granting `[0, 0x1000)` read-write twice on top of an
existing single-reference entry yields refcount 2. -/
theorem iommu_identity_mapping_exact_grant_witness :
    iommu_identity_mapping env0 P2mAccess.rw 0 4096
        [⟨0, 4096, P2mAccess.rw, 1⟩] [] =
      (Except.ok (), [⟨0, 4096, P2mAccess.rw, 2⟩], []) :=
  (iommu_identity_mapping_exact_grant env0 [] [] ⟨0, 4096, P2mAccess.rw, 1⟩ []
    0 4096 P2mAccess.rw (by decide) (by decide) rfl rfl (by norm_num [U32])
    (by simp)).1 rfl

/-- Counterexample to C2 as stated: the request `[0x1000, 0x2000)` overlaps no
live half-open range (the registry holds only `[0, 0x1000)`), yet the grant
fails with the conflict error and installs nothing, because the code compares
ranges with inclusive bounds (`end >= map->base && map->end >= base`). -/
theorem grant_adjacent_range_conflicts :
    (∀ m ∈ [({ base := 0, end_ := 4096, access := P2mAccess.rw, count := 1 } :
        identity_map)], ¬ halfOpenOverlaps m 4096 8192) ∧
    iommu_identity_mapping env0 P2mAccess.rw 4096 8192
        [{ base := 0, end_ := 4096, access := P2mAccess.rw, count := 1 }] [] =
      (Except.error Errno.EADDRINUSE,
        [{ base := 0, end_ := 4096, access := P2mAccess.rw, count := 1 }], []) := by
  exact ⟨by decide, by rfl⟩

/-- Claim C2 (amended): overlap is judged with inclusive bounds, so a range
that merely touches a live entry (its base equal to the entry's end, or vice
versa) also counts as a partial overlap.  With that notion: a grant with no
exact match fails with `EADDRINUSE` and changes nothing whenever some live
entry overlaps the request, and otherwise installs the identity mapping frame
by frame and appends a fresh entry with refcount 1. -/
theorem iommu_identity_mapping_fresh_grant
    (env : IdEnv) (maps : List identity_map) (p2m : List Nat)
    (base e : Nat) (p2ma : P2mAccess)
    (hrev : p2ma ≠ P2mAccess.x) (hlt : base < e) :
    ((∀ m ∈ maps, ¬ (m.base = base ∧ m.end_ = e)) →
      (∃ m ∈ maps, overlaps m base e) →
      iommu_identity_mapping env p2ma base e maps p2m =
        (Except.error Errno.EADDRINUSE, maps, p2m)) ∧
    ((∀ m ∈ maps, ¬ overlaps m base e) →
      (∀ pfn, base_pfn base ≤ pfn → pfn < end_pfn e → env.setErr pfn = none) →
      env.allocOk = true →
      iommu_identity_mapping env p2ma base e maps p2m =
        (Except.ok (), maps ++ [⟨base, e, p2ma, 1⟩],
          p2m ++ List.range' (base_pfn base) (end_pfn e - base_pfn base))) := by
  constructor
  · intro hex hov
    exact identity_scan_conflict env p2ma base e (base_pfn base) (end_pfn e)
      p2m maps hex hov
  · intro hov hset halloc
    exact identity_scan_fresh env p2ma base e (base_pfn base) (end_pfn e) p2m
      hrev hlt (fun j hj => hset (base_pfn base + j) (by omega) (by omega))
      halloc maps hov

/-- Witness for C2 (amended): a touching-but-not-exact grant conflicts, and a
fully disjoint grant installs frames 2 and 3 and a refcount-1 entry. -/
theorem iommu_identity_mapping_fresh_grant_witness :
    iommu_identity_mapping env0 P2mAccess.rw 2048 6144
        [{ base := 0, end_ := 4096, access := P2mAccess.rw, count := 1 }] [] =
      (Except.error Errno.EADDRINUSE,
        [{ base := 0, end_ := 4096, access := P2mAccess.rw, count := 1 }], []) ∧
    iommu_identity_mapping env0 P2mAccess.rw 8192 16384
        [{ base := 0, end_ := 4096, access := P2mAccess.rw, count := 1 }] [] =
      (Except.ok (),
        [{ base := 0, end_ := 4096, access := P2mAccess.rw, count := 1 },
         { base := 8192, end_ := 16384, access := P2mAccess.rw, count := 1 }],
        [2, 3]) :=
  ⟨(iommu_identity_mapping_fresh_grant env0
      [{ base := 0, end_ := 4096, access := P2mAccess.rw, count := 1 }] []
      2048 6144 P2mAccess.rw (by decide) (by decide)).1 (by decide) (by decide),
   (iommu_identity_mapping_fresh_grant env0
      [{ base := 0, end_ := 4096, access := P2mAccess.rw, count := 1 }] []
      8192 16384 P2mAccess.rw (by decide) (by decide)).2 (by decide)
      (fun _ _ _ => rfl) rfl⟩

/-- Counterexample to C3 as stated: releasing `[0, 0x1000)` while the registry
holds only the wider entry `[0, 0x2000)` finds no exact-range entry, and the
claim then demands a not-found error — but the scan trips the overlap test
first and fails with the conflict error `EADDRINUSE` instead of `ENOENT`. -/
theorem release_partial_overlap_not_enoent :
    iommu_identity_mapping env0 P2mAccess.x 0 4096
        [{ base := 0, end_ := 8192, access := P2mAccess.rw, count := 1 }] [0, 1] =
      (Except.error Errno.EADDRINUSE,
        [{ base := 0, end_ := 8192, access := P2mAccess.rw, count := 1 }], [0, 1]) ∧
    Errno.EADDRINUSE ≠ Errno.ENOENT := by
  exact ⟨by rfl, by decide⟩

/-- Claim C3 (amended): a release on an exact-range entry decrements its
refcount; at zero the frames are unmapped one by one, unmap failures are
aggregated into a single `ENXIO` without stopping the loop, and the entry is
deleted.  A release with no exact-range entry changes nothing and fails —
with `EADDRINUSE` when the range overlaps a live entry and with the
not-found error `ENOENT` otherwise. -/
theorem iommu_identity_mapping_release_spec :
    (∀ (env : IdEnv) (pre post : List identity_map) (m : identity_map)
        (p2m : List Nat) (base e : Nat),
      base < e → m.base = base → m.end_ = e → 2 ≤ m.count → m.count < U32 →
      (∀ m2 ∈ pre, ¬ overlaps m2 base e) →
      iommu_identity_mapping env P2mAccess.x base e (pre ++ m :: post) p2m =
        (Except.ok (), pre ++ { m with count := m.count - 1 } :: post, p2m)) ∧
    (∀ (env : IdEnv) (pre post : List identity_map) (m : identity_map)
        (p2m : List Nat) (base e : Nat),
      base < e → m.base = base → m.end_ = e → m.count = 1 →
      (∀ m2 ∈ pre, ¬ overlaps m2 base e) →
      (iommu_identity_mapping env P2mAccess.x base e (pre ++ m :: post) p2m).1 =
        (if ∃ j, j < end_pfn e - base_pfn base ∧
            env.clearFail (base_pfn base + j) = true
         then Except.error Errno.ENXIO else Except.ok ()) ∧
      (iommu_identity_mapping env P2mAccess.x base e (pre ++ m :: post) p2m).2.1 =
        pre ++ post ∧
      (∀ x, x ∈ (iommu_identity_mapping env P2mAccess.x base e
          (pre ++ m :: post) p2m).2.2 ↔
        x ∈ p2m ∧ ¬ (base_pfn base ≤ x ∧
          x < base_pfn base + (end_pfn e - base_pfn base) ∧
          env.clearFail x = false))) ∧
    (∀ (env : IdEnv) (maps : List identity_map) (p2m : List Nat) (base e : Nat),
      (∀ m ∈ maps, ¬ (m.base = base ∧ m.end_ = e)) →
      iommu_identity_mapping env P2mAccess.x base e maps p2m =
        ((if ∃ m ∈ maps, overlaps m base e then Except.error Errno.EADDRINUSE
          else Except.error Errno.ENOENT), maps, p2m)) := by
  refine ⟨?_, ?_, ?_⟩
  · intro env pre post m p2m base e hlt hb he hc2 hcU hpre
    unfold iommu_identity_mapping
    rw [identity_scan_append_skip env P2mAccess.x base e (base_pfn base)
      (end_pfn e) p2m pre (m :: post) hlt hpre]
    have hc : (m.count + (U32 - 1)) % U32 = m.count - 1 :=
      mul_mod_succ_pred m.count (by omega) hcU
    have hcz : ¬ (m.count - 1 = 0) := by omega
    simp [identity_scan, hb, he, hc, hcz]
  · intro env pre post m p2m base e hlt hb he hc1 hpre
    unfold iommu_identity_mapping
    rw [identity_scan_append_skip env P2mAccess.x base e (base_pfn base)
      (end_pfn e) p2m pre (m :: post) hlt hpre]
    have hc : (m.count + (U32 - 1)) % U32 = 0 := by
      rw [hc1]
      norm_num [U32]
    obtain ⟨hcl1, hcl2⟩ := clearFrames_spec env.clearFail
      (end_pfn e - base_pfn base) (base_pfn base) p2m none
    refine ⟨?_, ?_, ?_⟩
    · by_cases hex : ∃ j, j < end_pfn e - base_pfn base ∧
          env.clearFail (base_pfn base + j) = true
      · rw [if_pos hex] at hcl1 ⊢
        simp [identity_scan, hb, he, hc, hcl1]
      · rw [if_neg hex] at hcl1 ⊢
        simp [identity_scan, hb, he, hc, hcl1]
    · simp [identity_scan, hb, he, hc]
    · intro x
      simp only [identity_scan, hb, he, hc]
      simp only [eq_self_iff_true, and_self, if_true, ite_true, if_pos]
      simpa using hcl2 x
  · intro env maps p2m base e hex
    exact identity_scan_release_no_exact env base e (base_pfn base) (end_pfn e)
      p2m maps hex

/-- Witness for C3 (amended): releasing a doubly-granted range decrements the
refcount to 1 and keeps the mapping; releasing an unknown, non-overlapping
range fails with `ENOENT` and changes nothing. -/
theorem iommu_identity_mapping_release_spec_witness :
    iommu_identity_mapping env0 P2mAccess.x 0 4096
        [{ base := 0, end_ := 4096, access := P2mAccess.rw, count := 2 }] [0] =
      (Except.ok (),
        [{ base := 0, end_ := 4096, access := P2mAccess.rw, count := 1 }], [0]) ∧
    iommu_identity_mapping env0 P2mAccess.x 8192 12288 [] [7] =
      (Except.error Errno.ENOENT, [], [7]) :=
  ⟨iommu_identity_mapping_release_spec.1 env0 [] []
      { base := 0, end_ := 4096, access := P2mAccess.rw, count := 2 } [0] 0 4096
      (by decide) rfl rfl (by decide) (by norm_num [U32]) (by simp),
   iommu_identity_mapping_release_spec.2.2 env0 [] [7] 8192 12288 (by simp)⟩

/-- Claim C9: teardown empties the registry, performs no hardware unmap (the
p2m component is untouched), and a second teardown is a no-op. -/
theorem iommu_identity_map_teardown_spec (st : List identity_map × List Nat) :
    (iommu_identity_map_teardown st).1 = [] ∧
    (iommu_identity_map_teardown st).2 = st.2 ∧
    iommu_identity_map_teardown (iommu_identity_map_teardown st) =
      iommu_identity_map_teardown st := by
  refine ⟨teardown_loop_eq_nil st.1, rfl, ?_⟩
  simp [iommu_identity_map_teardown, teardown_loop_eq_nil]

theorem identity_scan_fresh_nomem (env : IdEnv) (p2ma : P2mAccess)
    (base e bpfn epfn : Nat) (p2m : List Nat)
    (hrev : p2ma ≠ P2mAccess.x) (hlt : base < e)
    (hset : ∀ j, j < epfn - bpfn → env.setErr (bpfn + j) = none)
    (halloc : env.allocOk = false) :
    ∀ maps : List identity_map, (∀ m ∈ maps, ¬ overlaps m base e) →
      identity_scan env p2ma base e bpfn epfn p2m maps =
        (Except.error Errno.ENOMEM, maps,
          p2m ++ List.range' bpfn (epfn - bpfn)) := by
  intro maps
  induction maps with
  | nil =>
    intro _
    have hsf := setFrames_ok env.setErr (epfn - bpfn) bpfn p2m hset
    simp [identity_scan, hrev, hsf, halloc]
  | cons m rest ih =>
    intro hov
    have hovm : ¬ overlaps m base e := hov m (by simp)
    rw [identity_scan_cons_skip env p2ma base e bpfn epfn p2m m rest
      (not_exact_of_not_overlaps hlt hovm) hovm,
      ih (fun m2 h2 => hov m2 (by simp [h2]))]

/-- Claim C10: when a fresh grant identity-maps every frame successfully but
the bookkeeping allocation then fails, the call returns `ENOMEM` while the
frame mappings remain installed and the registry records nothing. -/
theorem iommu_identity_mapping_alloc_failure
    (env : IdEnv) (maps : List identity_map) (p2m : List Nat)
    (base e : Nat) (p2ma : P2mAccess)
    (hrev : p2ma ≠ P2mAccess.x) (hlt : base < e)
    (hov : ∀ m ∈ maps, ¬ overlaps m base e)
    (hset : ∀ pfn, base_pfn base ≤ pfn → pfn < end_pfn e → env.setErr pfn = none)
    (halloc : env.allocOk = false) :
    iommu_identity_mapping env p2ma base e maps p2m =
      (Except.error Errno.ENOMEM, maps,
        p2m ++ List.range' (base_pfn base) (end_pfn e - base_pfn base)) :=
  identity_scan_fresh_nomem env p2ma base e (base_pfn base) (end_pfn e) p2m
    hrev hlt (fun j hj => hset (base_pfn base + j) (by omega) (by omega))
    halloc maps hov

/-- Witness for C10: with failing `xmalloc`, granting `[0x2000, 0x4000)` on an
empty registry maps frames 2 and 3, returns `ENOMEM`, and records no entry. -/
theorem iommu_identity_mapping_alloc_failure_witness :
    iommu_identity_mapping envNoAlloc P2mAccess.rw 8192 16384 [] [] =
      (Except.error Errno.ENOMEM, [], [2, 3]) :=
  iommu_identity_mapping_alloc_failure envNoAlloc [] [] 8192 16384 P2mAccess.rw
    (by decide) (by decide) (by simp) (fun _ _ _ => rfl) rfl

/-- Claim C5: freeing `DOMID_INVALID` is a no-op; freeing a valid id from the
reserved range clears its bit; freeing an id whose bit is already clear hits
`BUG()` — a fatal condition, not an error return. -/
theorem iommu_free_domid_spec :
    (∀ map : Nat → Bool,
      iommu_free_domid DOMID_INVALID map = FreeDomidResult.ok map) ∧
    (∀ (domid : Nat) (map : Nat → Bool),
      domid ≠ DOMID_INVALID → DOMID_MASK < domid →
      map (domid &&& DOMID_MASK) = true →
      iommu_free_domid domid map = FreeDomidResult.ok
        (fun j => if j = domid &&& DOMID_MASK then false else map j)) ∧
    (∀ (domid : Nat) (map : Nat → Bool),
      domid ≠ DOMID_INVALID → DOMID_MASK < domid →
      map (domid &&& DOMID_MASK) = false →
      iommu_free_domid domid map = FreeDomidResult.bug) := by
  refine ⟨fun map => by simp [iommu_free_domid], ?_, ?_⟩
  · intro domid map h1 h2 h3
    simp [iommu_free_domid, h1, h2, h3]
  · intro domid map h1 h2 h3
    simp [iommu_free_domid, h1, h2, h3]

/-- Witness for C5 at domid `0x8005` (bit 5 of the reserved-range bitmap). -/
theorem iommu_free_domid_spec_witness :
    iommu_free_domid DOMID_INVALID (fun _ => true) =
      FreeDomidResult.ok (fun _ => true) ∧
    iommu_free_domid 32773 (fun _ => true) = FreeDomidResult.ok
      (fun j => if j = 32773 &&& DOMID_MASK then false else (fun _ => true) j) ∧
    iommu_free_domid 32773 (fun _ => false) = FreeDomidResult.bug :=
  ⟨iommu_free_domid_spec.1 (fun _ => true),
   iommu_free_domid_spec.2.1 32773 (fun _ => true) (by decide) (by decide) rfl,
   iommu_free_domid_spec.2.2 32773 (fun _ => false) (by decide) (by decide) rfl⟩

/-- Claim C8: `iommu_free_pgtables` either frees every page of the owner's
live list and returns success with the list empty, or — when the periodic
preemption check (every 256 pages) fires — returns `-ERESTART` with exactly
the pages freed so far removed from the list, so a repeat call resumes the
drain; the drain itself is a terminating loop. -/
theorem iommu_free_pgtables_drains_or_restarts (preempt : Nat → Bool)
    (pgs : List Nat) :
    iommu_free_pgtables true preempt pgs = (0, [], pgs) ∨
    ∃ k, 0 < k ∧ k ≤ pgs.length ∧ k % 256 = 0 ∧
      iommu_free_pgtables true preempt pgs = (-ERESTART, pgs.drop k, pgs.take k) := by
  rcases free_pgt_loop_spec preempt pgs 0 [] with h | ⟨k, h1, h2, h3, h⟩
  · left
    simpa [iommu_free_pgtables] using h
  · right
    exact ⟨k, h1, h2, by simpa using h3, by simpa [iommu_free_pgtables] using h⟩

theorem two_pow_le_lor (idx n : Nat) : 2 ^ n ≤ idx ||| 2 ^ n := by
  by_contra hlt
  push_neg at hlt
  have h1 : (idx ||| 2 ^ n).testBit n = false := Nat.testBit_lt_two_pow hlt
  rw [Nat.testBit_lor, Nat.testBit_two_pow_self, Bool.or_true] at h1
  exact absurd h1 (by simp)

theorem domid_bias_lower_bound (idx : Nat) :
    DOMID_MASK + 1 ≤ idx ||| (DOMID_MASK + 1) := by
  have h : (2 : Nat) ^ 15 ≤ idx ||| 2 ^ 15 := two_pow_le_lor idx 15
  simpa [DOMID_MASK] using h

theorem alloc_domid_cases (map : Nat → Bool) (start : Nat) :
    (iommu_alloc_domid map start = (DOMID_INVALID, map, start) ∧
      ∀ i, i < domidSpace → map i = true) ∨
    (∃ idx, idx < domidSpace ∧ map idx = false ∧
      iommu_alloc_domid map start =
        (idx ||| (DOMID_MASK + 1), fun j => if j = idx then true else map j,
          idx + 1)) := by
  by_cases hs : start ≤ domidSpace
  · rcases find_next_zero_bit_spec map domidSpace start hs with ⟨h1, _⟩ | ⟨_, h2, h3⟩
    · rcases find_next_zero_bit_spec map domidSpace 0 (by omega) with
        ⟨g1, g2⟩ | ⟨_, g2, g3⟩
      · left
        refine ⟨?_, fun i hi => g2 i (by omega) hi⟩
        simp only [iommu_alloc_domid]
        rw [if_pos (by omega : find_next_zero_bit map domidSpace start ≥ domidSpace),
          if_pos (by omega : find_next_zero_bit map domidSpace 0 ≥ domidSpace)]
      · right
        refine ⟨find_next_zero_bit map domidSpace 0, g2, g3, ?_⟩
        simp only [iommu_alloc_domid]
        rw [if_pos (by omega : find_next_zero_bit map domidSpace start ≥ domidSpace),
          if_neg (by omega : ¬ find_next_zero_bit map domidSpace 0 ≥ domidSpace)]
    · right
      refine ⟨find_next_zero_bit map domidSpace start, h2, h3, ?_⟩
      simp only [iommu_alloc_domid]
      rw [if_neg (by omega : ¬ find_next_zero_bit map domidSpace start ≥ domidSpace),
        if_neg (by omega : ¬ find_next_zero_bit map domidSpace start ≥ domidSpace)]
  · have h1 : find_next_zero_bit map domidSpace start = domidSpace := by
      unfold find_next_zero_bit
      rw [show domidSpace - start = 0 by omega]
      rfl
    rcases find_next_zero_bit_spec map domidSpace 0 (by omega) with
      ⟨g1, g2⟩ | ⟨_, g2, g3⟩
    · left
      refine ⟨?_, fun i hi => g2 i (by omega) hi⟩
      simp only [iommu_alloc_domid]
      rw [if_pos (by omega : find_next_zero_bit map domidSpace start ≥ domidSpace),
        if_pos (by omega : find_next_zero_bit map domidSpace 0 ≥ domidSpace)]
    · right
      refine ⟨find_next_zero_bit map domidSpace 0, g2, g3, ?_⟩
      simp only [iommu_alloc_domid]
      rw [if_pos (by omega : find_next_zero_bit map domidSpace start ≥ domidSpace),
        if_neg (by omega : ¬ find_next_zero_bit map domidSpace 0 ≥ domidSpace)]

/-- Claim C4: `iommu_alloc_domid` returns `DOMID_INVALID` exactly when every
bit of the space is taken; otherwise it returns an id built from a clear bit,
marks that bit used, advances the rotating cursor past it, and the id is
biased into the reserved upper range — strictly above `DOMID_MASK`, so it can
never collide with a primary guest identifier nor with an outstanding id
(whose bit would have been set). -/
theorem iommu_alloc_domid_spec (map : Nat → Bool) (start : Nat) :
    ((iommu_alloc_domid map start).1 = DOMID_INVALID ↔
      ∀ i, i < domidSpace → map i = true) ∧
    ((iommu_alloc_domid map start).1 ≠ DOMID_INVALID →
      ∃ idx, idx < domidSpace ∧ map idx = false ∧
        (iommu_alloc_domid map start).1 = (idx ||| (DOMID_MASK + 1)) ∧
        (iommu_alloc_domid map start).2.1 idx = true ∧
        (iommu_alloc_domid map start).2.2 = idx + 1 ∧
        DOMID_MASK < (iommu_alloc_domid map start).1) := by
  rcases alloc_domid_cases map start with ⟨heq, hall⟩ | ⟨idx, hlt, hbit, heq⟩
  · constructor
    · rw [heq]
      exact ⟨fun _ => hall, fun _ => rfl⟩
    · intro hne
      rw [heq] at hne
      exact absurd rfl hne
  · have hge : DOMID_MASK + 1 ≤ idx ||| (DOMID_MASK + 1) := domid_bias_lower_bound idx
    have hinv : (idx ||| (DOMID_MASK + 1)) ≠ DOMID_INVALID := by
      have : DOMID_INVALID < DOMID_MASK + 1 := by norm_num [DOMID_INVALID, DOMID_MASK]
      omega
    constructor
    · rw [heq]
      constructor
      · intro h
        exact absurd h hinv
      · intro hall
        exact absurd hbit (by simp [hall idx hlt])
    · intro _
      rw [heq]
      exact ⟨idx, hlt, hbit, rfl, by simp, rfl, by omega⟩

/-- Witness for C4: allocating from the empty bitmap yields id `0x8000`
(bit 0, biased), marks bit 0, and advances the cursor to 1. -/
theorem iommu_alloc_domid_spec_witness :
    (iommu_alloc_domid (fun _ => false) 0).1 ≠ DOMID_INVALID ∧
    ∃ idx, idx < domidSpace ∧ (fun _ => false : Nat → Bool) idx = false ∧
      (iommu_alloc_domid (fun _ => false) 0).1 = (idx ||| (DOMID_MASK + 1)) ∧
      (iommu_alloc_domid (fun _ => false) 0).2.1 idx = true ∧
      (iommu_alloc_domid (fun _ => false) 0).2.2 = idx + 1 ∧
      DOMID_MASK < (iommu_alloc_domid (fun _ => false) 0).1 :=
  have hne : (iommu_alloc_domid (fun _ => false) 0).1 ≠ DOMID_INVALID := by decide
  ⟨hne, (iommu_alloc_domid_spec (fun _ => false) 0).2 hne⟩

theorem markerLoop_spec (shift : Nat) :
    ∀ (fuel i : Nat) (p : Nat → Nat), i + 4 * fuel = PT_SLOTS → i % 4 = 0 →
      ∀ j, markerLoop shift fuel i p j =
        if i ≤ j ∧ j < PT_SLOTS then marker_pat shift j else p j := by
  intro fuel
  induction fuel with
  | zero =>
    intro i p hsz _ j
    rw [markerLoop, if_neg]
    rintro ⟨h1, h2⟩
    omega
  | succ fuel ih =>
    intro i p hsz hmod j
    have hi : i < PT_SLOTS := by
      have : (0 : Nat) < PT_SLOTS := by norm_num [PT_SLOTS]
      omega
    rw [markerLoop, if_pos hi,
      ih (i + 4) _ (by omega) (by omega) j]
    by_cases h4 : i + 4 ≤ j ∧ j < PT_SLOTS
    · rw [if_pos h4, if_pos (by omega : i ≤ j ∧ j < PT_SLOTS)]
    · rw [if_neg h4]
      by_cases hj : i ≤ j ∧ j < PT_SLOTS
      · rw [if_pos hj]
        have : j = i ∨ j = i + 1 ∨ j = i + 2 ∨ j = i + 3 := by omega
        rcases this with rfl | rfl | rfl | rfl
        · rw [upd, if_neg (by omega), upd, if_neg (by omega), upd,
            if_neg (by omega), upd, if_pos rfl, marker_pat, if_pos (by omega)]
        · rw [upd, if_neg (by omega), upd, if_neg (by omega), upd, if_pos rfl,
            marker_pat, if_neg (by omega), if_neg (by omega)]
        · rw [upd, if_neg (by omega), upd, if_pos rfl, marker_pat,
            if_neg (by omega), if_pos (by omega)]
        · rw [upd, if_pos rfl, marker_pat, if_neg (by omega), if_neg (by omega)]
      · rw [if_neg hj]
        have hlow : j < i ∨ PT_SLOTS ≤ j := by omega
        rw [upd, if_neg (by omega), upd, if_neg (by omega), upd,
          if_neg (by omega), upd, if_neg (by omega)]

theorem pgtable_contents (mask : Nat) (p0 : Nat → Nat) (j : Nat)
    (hm : mask ≠ 0) (hj : j < PT_SLOTS) :
    iommu_alloc_pgtable_page mask p0 j =
      if j = 0 then (CONTIG_LEVEL_SHIFT <<< find_first_set_bit mask) % U64
      else marker_pat (find_first_set_bit mask) j := by
  rw [iommu_alloc_pgtable_page, if_pos hm]
  rw [markerLoop_spec (find_first_set_bit mask) 127 4 _ (by norm_num [PT_SLOTS])
    (by omega) j]
  by_cases h4 : 4 ≤ j ∧ j < PT_SLOTS
  · rw [if_pos h4, if_neg (by omega)]
  · have : j = 0 ∨ j = 1 ∨ j = 2 ∨ j = 3 := by omega
    rw [if_neg h4]
    rcases this with rfl | rfl | rfl | rfl
    · rw [upd, if_neg (by omega), upd, if_neg (by omega), upd, if_neg (by omega),
        upd, if_pos rfl, if_pos rfl]
    · rw [upd, if_neg (by omega), upd, if_neg (by omega), upd, if_pos rfl,
        if_neg (by omega), marker_pat, if_neg (by omega), if_neg (by omega)]
    · rw [upd, if_neg (by omega), upd, if_pos rfl, if_neg (by omega),
        marker_pat, if_neg (by omega), if_pos (by omega)]
    · rw [upd, if_pos rfl, if_neg (by omega), marker_pat, if_neg (by omega),
        if_neg (by omega)]

theorem shift_decode (v s : Nat) (hv : v ≤ 9) (hs : s ≤ 60) :
    ((v <<< s) % U64) >>> s = v := by
  have hb : v * 2 ^ s < 2 ^ 64 := by
    calc v * 2 ^ s ≤ 9 * 2 ^ 60 :=
          Nat.mul_le_mul hv (Nat.pow_le_pow_right (by norm_num) hs)
    _ < 2 ^ 64 := by norm_num
  rw [Nat.shiftLeft_eq, U64, Nat.mod_eq_of_lt hb, Nat.shiftRight_eq_div_pow,
    Nat.mul_div_cancel v (Nat.pos_pow_of_pos s (by norm_num))]

set_option maxRecDepth 8192 in
theorem ffs_facts : ∀ j, j < 512 →
    (0 < j → find_first_set_bit j ≤ 8) ∧
    (j % 4 = 2 → find_first_set_bit j = 1) ∧
    (j % 4 = 1 ∨ j % 4 = 3 → find_first_set_bit j = 0) := by
  decide

set_option maxRecDepth 100000 in
/-- Counterexample to C7 as stated: with contiguity tracking enabled (mask 1,
shift 0), slot 6 — one of the "remaining" slots of the 4-slot group starting
at slot 4 — holds `1 << shift = 1`, not zero: the claim's "remaining leaf
slots zeroed" fails for the third slot of every group. -/
theorem pgtable_marker_group_slot_nonzero :
    iommu_alloc_pgtable_page 1 (fun _ => 0) 6 = 1 ∧ (1 : Nat) ≠ 0 :=
  ⟨rfl, by decide⟩

/-- Claim C7 (amended): with contiguity tracking enabled, slot 0 decodes to
the base run-length exponent `CONTIG_LEVEL_SHIFT` and every other slot `j`
decodes to the lowest-set-bit index of its own slot index `j` — so each
4-slot group's first slot carries `ffs(4·group)`, its third slot carries
exponent 1 (value `1 << shift`, not zero), and the odd slots are zero.  With
contiguity tracking disabled the page is entirely zero. -/
theorem iommu_alloc_pgtable_marker (contig_mask : Nat) (p0 : Nat → Nat)
    (hm : contig_mask ≠ 0) (hs : find_first_set_bit contig_mask ≤ 60) :
    (decode_run (iommu_alloc_pgtable_page contig_mask p0)
        (find_first_set_bit contig_mask) 0 = CONTIG_LEVEL_SHIFT) ∧
    (∀ j, 0 < j → j < PT_SLOTS →
      decode_run (iommu_alloc_pgtable_page contig_mask p0)
        (find_first_set_bit contig_mask) j = find_first_set_bit j) ∧
    (∀ (q0 : Nat → Nat) (j : Nat), iommu_alloc_pgtable_page 0 q0 j = 0) := by
  refine ⟨?_, ?_, fun q0 j => by rw [iommu_alloc_pgtable_page, if_neg (by simp)]⟩
  · rw [decode_run, pgtable_contents contig_mask p0 0 hm (by norm_num [PT_SLOTS]),
      if_pos rfl]
    exact shift_decode CONTIG_LEVEL_SHIFT _ (by norm_num [CONTIG_LEVEL_SHIFT]) hs
  · intro j hj0 hj
    have hj512 : j < 512 := by simpa [PT_SLOTS] using hj
    rw [decode_run, pgtable_contents contig_mask p0 j hm hj, if_neg (by omega),
      marker_pat]
    obtain ⟨hf1, hf2, hf3⟩ := ffs_facts j hj512
    by_cases h0 : j % 4 = 0
    · rw [if_pos h0]
      have hb := hf1 hj0
      exact shift_decode (find_first_set_bit j) _ (by omega) hs
    · rw [if_neg h0]
      by_cases h2 : j % 4 = 2
      · rw [if_pos h2, hf2 h2]
        exact shift_decode 1 _ (by norm_num) hs
      · rw [if_neg h2, hf3 (by omega)]
        simp [Nat.shiftRight_eq_div_pow]

/-- Witness for C7 (amended) at mask 1: slot 0 decodes to the base exponent
and slot 8 decodes to `ffs(8) = 3`. -/
theorem iommu_alloc_pgtable_marker_witness :
    decode_run (iommu_alloc_pgtable_page 1 (fun _ => 0)) (find_first_set_bit 1) 0 =
      CONTIG_LEVEL_SHIFT ∧
    decode_run (iommu_alloc_pgtable_page 1 (fun _ => 0)) (find_first_set_bit 1) 8 =
      find_first_set_bit 8 :=
  ⟨(iommu_alloc_pgtable_marker 1 (fun _ => 0) (by decide) (by decide)).1,
   (iommu_alloc_pgtable_marker 1 (fun _ => 0) (by decide) (by decide)).2.1 8
     (by decide) (by norm_num [PT_SLOTS])⟩

theorem commit_loop_always_ok (mapRc : Nat → Nat → Nat → Int)
    (h : ∀ s c q, mapRc s c q = 0) (fuel s c q : Nat) :
    commit_loop mapRc (fuel + 1) s c q = ([⟨s, c, q⟩], 0, s, c) := by
  rw [commit_loop, h s c q]
  simp

theorem hwdom_skip (perms : Nat → Nat) (mapRc : Nat → Nat → Nat → Int) (top : Nat) :
    ∀ (n i : Nat) (st : HwdomSt), (∀ j, i ≤ j → j < i + n → perms j = 0) →
      i + n < top →
      hwdom_loop perms mapRc top (top - i) i st =
        hwdom_loop perms mapRc top (top - (i + n)) (i + n) st := by
  intro n
  induction n with
  | zero => intro i st _ _; rfl
  | succ n ih =>
    intro i st hz htop
    have hfuel : top - i = (top - (i + 1)) + 1 := by omega
    have hp : perms i = 0 := hz i (Nat.le_refl i) (by omega)
    rw [hfuel, hwdom_loop]
    simp only [hp, eq_self_iff_true, if_true, ite_true]
    rw [if_neg (fun h => absurd h.1 (by omega))]
    have h2 := ih (i + 1) st (fun j h1j h2j => hz j (by omega) (by omega)) (by omega)
    rwa [show i + 1 + n = i + (n + 1) by omega] at h2

theorem hwdom_skip_end (perms : Nat → Nat) (mapRc : Nat → Nat → Nat → Int)
    (top : Nat) (h0 : ∀ s c q, mapRc s c q = 0) :
    ∀ (n i : Nat) (st : HwdomSt), 0 < n → i + n = top →
      (∀ j, i ≤ j → j < top → perms j = 0) → st.count ≠ 0 →
      hwdom_loop perms mapRc top (top - i) i st =
        ⟨top - 1, 1, 0, st.calls ++ [⟨st.start, st.count, st.start_perms⟩]⟩ := by
  intro n
  induction n with
  | zero => intro i st h _ _ _; omega
  | succ n ih =>
    intro i st _ htop hz hc
    have hfuel : top - i = (top - (i + 1)) + 1 := by omega
    have hp : perms i = 0 := hz i (Nat.le_refl i) (by omega)
    rw [hfuel, hwdom_loop]
    simp only [hp, eq_self_iff_true, if_true, ite_true]
    cases n with
    | zero =>
      rw [if_pos ⟨by omega, hc⟩,
        commit_loop_always_ok mapRc h0 st.count st.start st.count st.start_perms]
      rw [show i = top - 1 by omega]
    | succ n2 =>
      rw [if_neg (fun h => absurd h.1 (by omega))]
      exact ih (i + 1) st (by omega) (by omega)
        (fun j h1j h2j => hz j (by omega) h2j) hc

theorem hwdom_acc_mid (perms : Nat → Nat) (mapRc : Nat → Nat → Nat → Int)
    (top a b p : Nat) (hp : p ≠ 0) (hbt : b < top)
    (hperm : ∀ j, a ≤ j → j < b → perms j = p) :
    ∀ (n i : Nat) (cs : List MapCall), a < i → i + n = b →
      hwdom_loop perms mapRc top (top - i) i ⟨a, i - a, p, cs⟩ =
        hwdom_loop perms mapRc top (top - b) b ⟨a, b - a, p, cs⟩ := by
  intro n
  induction n with
  | zero => intro i cs ha hi; rw [show i = b by omega]
  | succ n ih =>
    intro i cs ha hi
    have hib : i < b := by omega
    have hfuel : top - i = (top - (i + 1)) + 1 := by omega
    have hpi : perms i = p := hperm i (by omega) hib
    rw [hfuel, hwdom_loop]
    simp only [hpi]
    rw [if_neg hp,
      if_neg (by push_neg; exact ⟨by omega, rfl⟩ :
        ¬ (i ≠ a + (i - a) ∨ p ≠ p)),
      if_neg (fun h => absurd h.1 (by omega))]
    have h2 := ih (i + 1) cs (by omega) (by omega)
    rwa [show i + 1 - a = i - a + 1 by omega] at h2

theorem hwdom_acc_end (perms : Nat → Nat) (mapRc : Nat → Nat → Nat → Int)
    (top a p : Nat) (h0 : ∀ s c q, mapRc s c q = 0) (hp : p ≠ 0)
    (hperm : ∀ j, a ≤ j → j < top → perms j = p) :
    ∀ (n i : Nat) (cs : List MapCall), 0 < n → a < i → i + n = top →
      hwdom_loop perms mapRc top (top - i) i ⟨a, i - a, p, cs⟩ =
        ⟨top - 1, 1, p, cs ++ [⟨a, top - a, p⟩]⟩ := by
  intro n
  induction n with
  | zero => intro i cs h _ _; omega
  | succ n ih =>
    intro i cs _ ha hi
    have hit : i < top := by omega
    have hfuel : top - i = (top - (i + 1)) + 1 := by omega
    have hpi : perms i = p := hperm i (by omega) hit
    rw [hfuel, hwdom_loop]
    simp only [hpi]
    rw [if_neg hp,
      if_neg (by push_neg; exact ⟨by omega, rfl⟩ :
        ¬ (i ≠ a + (i - a) ∨ p ≠ p))]
    cases n with
    | zero =>
      rw [if_pos ⟨by omega, by show i - a + 1 ≠ 0; omega⟩]
      dsimp only
      rw [commit_loop_always_ok mapRc h0 (i - a + 1) a (i - a + 1) p]
      rw [show i = top - 1 by omega, show top - 1 - a + 1 = top - a by omega]
    | succ n2 =>
      rw [if_neg (fun h => absurd h.1 (by omega))]
      have h2 := ih (i + 1) cs (by omega) (by omega) (by omega)
      rwa [show i + 1 - a = i - a + 1 by omega] at h2

theorem committed_pair (a c p : Nat) (h : c ≠ 0) :
    committed [⟨0, 0, 0⟩, ⟨a, c, p⟩] = [⟨a, c, p⟩] := by
  have hb : (c != 0) = true := by simpa using h
  simp [committed, List.filter, hb]

/-- Claim C6: with passthrough off and a non-translated hardware domain, a run
of consecutive frames `[a, b)` sharing the same non-zero permission `p`
(with everything else classified as no access) is committed as exactly one
`iommu_map` range `(a, b - a, p)` when the run breaks, and no range covering
any zero-permission frame is committed. -/
theorem hwdom_coalesces_single_run (perms : Nat → Nat)
    (mapRc : Nat → Nat → Nat → Int) (top a b p : Nat)
    (h0 : ∀ s c q, mapRc s c q = 0) (hp : p ≠ 0) (hab : a < b) (hbt : b ≤ top)
    (hperm : ∀ i, perms i = if a ≤ i ∧ i < b then p else 0) :
    committed (arch_iommu_hwdom_init false perms mapRc top).calls =
      [⟨a, b - a, p⟩] := by
  have hz : ∀ j, j < a → perms j = 0 := fun j hj => by
    rw [hperm j, if_neg (fun h => absurd h.1 (by omega))]
  have hrun : ∀ j, a ≤ j → j < b → perms j = p := fun j h1 h2 => by
    rw [hperm j, if_pos ⟨h1, h2⟩]
  have hafter : ∀ j, b ≤ j → perms j = 0 := fun j hj => by
    rw [hperm j, if_neg (fun h => absurd h.2 (by omega))]
  rw [arch_iommu_hwdom_init, if_neg (by simp)]
  have hstep0 : hwdom_loop perms mapRc top top 0 ⟨0, 0, 0, []⟩ =
      hwdom_loop perms mapRc top (top - a) a ⟨0, 0, 0, []⟩ := by
    simpa using hwdom_skip perms mapRc top a 0 ⟨0, 0, 0, []⟩
      (fun j h1j h2j => hz j (by omega)) (by omega)
  rw [hstep0]
  have hfuel : top - a = (top - (a + 1)) + 1 := by omega
  have hpa : perms a = p := hrun a (Nat.le_refl a) hab
  rw [hfuel, hwdom_loop]
  simp only [hpa]
  rw [if_neg hp, if_pos (Or.inr hp : a ≠ 0 + 0 ∨ p ≠ 0)]
  dsimp only
  rw [commit_loop_always_ok mapRc h0 0 0 0 0]
  dsimp only
  by_cases hend : a + 1 = top
  · have hb : b = top := by omega
    rw [if_pos ⟨hend, by show (1 : Nat) ≠ 0; omega⟩]
    dsimp only
    rw [commit_loop_always_ok mapRc h0 1 a 1 p]
    dsimp only
    rw [show b - a = 1 by omega, List.nil_append]
    exact committed_pair a 1 p (by omega)
  · rw [if_neg (fun h => absurd h.1 hend)]
    rw [List.nil_append]
    by_cases hbb : b = top
    · have hacc := hwdom_acc_end perms mapRc top a p h0 hp
        (fun j hj1 hj2 => hrun j hj1 (by omega)) (top - (a + 1)) (a + 1)
        [⟨0, 0, 0⟩] (by omega) (by omega) (by omega)
      rw [show (1 : Nat) = a + 1 - a by omega,
        show a + (a + 1 - a) = a + 1 by omega, hacc]
      dsimp only
      rw [show top - a = b - a by omega]
      exact committed_pair a (b - a) p (by omega)
    · have hacc := hwdom_acc_mid perms mapRc top a b p hp (by omega) hrun
        (b - (a + 1)) (a + 1) [⟨0, 0, 0⟩] (by omega) (by omega)
      rw [show (1 : Nat) = a + 1 - a by omega,
        show a + (a + 1 - a) = a + 1 by omega, hacc]
      have hskip := hwdom_skip_end perms mapRc top h0 (top - b) b
        ⟨a, b - a, p, [⟨0, 0, 0⟩]⟩ (by omega) (by omega)
        (fun j h1j h2j => hafter j (by omega))
        (by show b - a ≠ 0; omega)
      rw [hskip]
      dsimp only
      exact committed_pair a (b - a) p (by omega)

/-- Witness for C6: in an 8-frame window where frames 5 and 6 classify as
read-write (permission 3) and frame 7 as none, exactly the single range
`(start 5, 2 frames, rw)` is committed and no commit covers frame 7. -/
theorem hwdom_coalesces_single_run_witness :
    committed (arch_iommu_hwdom_init false
      (fun i => if 5 ≤ i ∧ i < 7 then 3 else 0) (fun _ _ _ => 0) 8).calls =
      [⟨5, 2, 3⟩] :=
  hwdom_coalesces_single_run (fun i => if 5 ≤ i ∧ i < 7 then 3 else 0)
    (fun _ _ _ => 0) 8 5 7 3 (fun _ _ _ => rfl) (by decide) (by decide)
    (by decide) (fun i => rfl)
